import Mathlib

/-!
Verification development for the autotagger release bot.

The program scans a paginated list of git tag references, parses each as a
semantic version, keeps the maximum, and derives the next patch version.
We embed the Go source shallowly: strings become lists of characters,
the 64-bit int arithmetic of the patch increment is modelled with an
explicit wrap at 2 to the 63, and the paginated tag source becomes a list
of pages of ref-name strings.

External dependency note: the semantic-version parsing and ordering come
from a third-party library whose source is not part of this repository.
Those operations are modelled from the specification: a version is an
optional letter v, one or more dot-separated numeric segments (each must
fit in a signed 64-bit integer), an optional pre-release identifier after
a dash and optional build metadata after a plus; segments are normalized
to at least three entries by zero padding; ordering compares segments
first (zero padded to equal length) and then pre-release identifiers by
the standard semver precedence rules, with build metadata ignored.
-/

/-- Character classification: decimal digit, by code point. -/
def isDigitC (c : Char) : Bool := 48 ≤ c.toNat && c.toNat ≤ 57

/-- Numeric value of a digit character. -/
def digitVal (c : Char) : Nat := c.toNat - 48

/-- Decimal value of a digit string, most significant first. -/
def digitsVal (l : List Char) : Nat := l.foldl (fun a c => 10 * a + digitVal c) 0

/-- Character for a decimal digit value below ten. -/
def digitChar (d : Nat) : Char := Char.ofNat (48 + d)

/-- Decimal rendering with explicit fuel so that it is structurally
recursive and evaluates inside the kernel. -/
def natDecF : Nat → Nat → List Char
  | 0, _ => []
  | fuel + 1, n => if n < 10 then [digitChar n] else natDecF fuel (n / 10) ++ [digitChar (n % 10)]

/-- Decimal rendering of a natural number, as produced by the %d format verb. -/
def natDec (n : Nat) : List Char := natDecF (n + 1) n

/-- Decimal rendering of an integer, as produced by the %d format verb. -/
def intDec (n : Int) : List Char := if n < 0 then '-' :: natDec (-n).toNat else natDec n.toNat

/-- Largest value of a signed 64-bit integer, the bound enforced by ParseInt. -/
def maxInt64 : Int := 9223372036854775807

/-- Wrap-around of signed 64-bit integer arithmetic. -/
def int64wrap (n : Int) : Int := (n + 2 ^ 63) % 2 ^ 64 - 2 ^ 63

/-- Drop a single leading letter v, as the version regular expression does. -/
def stripV (l : List Char) : List Char :=
  match l with
  | [] => []
  | c :: rest => if c = 'v' then rest else c :: rest

/-- Split a list at the first occurrence of a character; none if absent. -/
def breakAt (k : Char) : List Char → Option (List Char × List Char)
  | [] => none
  | x :: xs =>
    if x = k then some ([], xs)
    else
      match breakAt k xs with
      | none => none
      | some (a, b) => some (x :: a, b)

/-- Accumulator pair for the dot splitter: current part and later parts. -/
def splitDotsP (l : List Char) : List Char × List (List Char) :=
  l.foldr (fun c acc => if c = '.' then ([], acc.1 :: acc.2) else (c :: acc.1, acc.2)) ([], [])

/-- Split a list into its dot-separated parts; always returns at least one part. -/
def splitDots (l : List Char) : List (List Char) := (splitDotsP l).1 :: (splitDotsP l).2

/-- Character allowed inside pre-release and build-metadata identifiers. -/
def validIdentChar (c : Char) : Bool :=
  isDigitC c || (97 ≤ c.toNat && c.toNat ≤ 122) || (65 ≤ c.toNat && c.toNat ≤ 90) ||
    c = '-' || c = '~'

/-- Validity of a pre-release or build-metadata identifier: nonempty,
dot-separated nonempty parts of allowed characters. -/
def validIdent (l : List Char) : Bool :=
  !(l.isEmpty) && (splitDots l).all (fun p => !(p.isEmpty) && p.all validIdentChar)

/-- Parse one numeric segment: nonempty digits whose value fits in int64. -/
def parseNumSeg (l : List Char) : Option Int :=
  if !(l.isEmpty) && l.all isDigitC && digitsVal l ≤ 9223372036854775807
  then some ((digitsVal l : Int)) else none

/-- Option-valued monadic map over a list, failing on the first failure. -/
def mapMO (f : α → Option β) : List α → Option (List β)
  | [] => some []
  | a :: l =>
    match f a with
    | none => none
    | some b =>
      match mapMO f l with
      | none => none
      | some bs => some (b :: bs)

/-- A parsed semantic version: numeric segments (padded to at least three),
pre-release identifier and build metadata. -/
structure GoVersion where
  segments : List Int
  pre : List Char
  metadata : List Char
deriving DecidableEq

/-- Pad a segment list with zeros on the right up to length three. -/
def padTo3 (l : List Int) : List Int := l ++ List.replicate (3 - l.length) 0

/-- Final stage of the parse: the numeric segments before any dash,
the optional pre-release after it, the optional metadata after a plus. -/
def parseCore (segPart : List Char) (preOpt metaOpt : Option (List Char)) : Option GoVersion :=
  match mapMO parseNumSeg (splitDots segPart) with
  | none => none
  | some segs =>
    if (match preOpt with | none => true | some p => validIdent p) &&
       (match metaOpt with | none => true | some m => validIdent m)
    then some ⟨padTo3 segs, preOpt.getD [], metaOpt.getD []⟩
    else none

/-- Second stage of the parse: split the part before the plus at the
first dash, separating segments from the pre-release identifier. -/
def parseMain (mainPart : List Char) (metaOpt : Option (List Char)) : Option GoVersion :=
  match breakAt '-' mainPart with
  | none => parseCore mainPart none metaOpt
  | some (a, b) => parseCore a (some b) metaOpt

/-- Parse a semantic version from characters, following the version
regular expression of the library: optional v, dot-separated numeric
segments, optional dash pre-release, optional plus metadata. -/
def parseSemverChars (input : List Char) : Option GoVersion :=
  match breakAt '+' (stripV input) with
  | none => parseMain (stripV input) none
  | some (a, b) => parseMain a (some b)

/-- Parse a semantic version from a string, as version.NewSemver does. -/
def newSemver (s : String) : Option GoVersion := parseSemverChars s.data

/-- Render a version back to a string, as the String method does:
dot-joined segments, then dash pre-release, then plus metadata. -/
def joinDotsC : List (List Char) → List Char
  | [] => []
  | [x] => x
  | x :: xs => x ++ '.' :: joinDotsC xs

/-- Characters of the rendered version string. -/
def versionCharsOf (v : GoVersion) : List Char :=
  joinDotsC (v.segments.map intDec) ++
    (if v.pre = [] then [] else '-' :: v.pre) ++
    (if v.metadata = [] then [] else '+' :: v.metadata)

/-- Rendered version string. -/
def versionString (v : GoVersion) : String := ⟨versionCharsOf v⟩

/-- Three-way comparison on integers. -/
def intCmp (a b : Int) : Ordering := if a < b then .lt else if a = b then .eq else .gt

/-- Three-way comparison on naturals. -/
def natCmp (a b : Nat) : Ordering := if a < b then .lt else if a = b then .eq else .gt

/-- Byte-order comparison of characters. -/
def charCmp (a b : Char) : Ordering := natCmp a.toNat b.toNat

/-- Lexicographic comparison of lists, a missing element sorting first. -/
def lexCompare (cmp : α → α → Ordering) : List α → List α → Ordering
  | [], [] => .eq
  | [], _ :: _ => .lt
  | _ :: _, [] => .gt
  | a :: as, b :: bs => (cmp a b).then (lexCompare cmp as bs)

/-- Pad a segment list with zeros on the right up to the given length. -/
def padZeros (n : Nat) (l : List Int) : List Int := l ++ List.replicate (n - l.length) 0

/-- Segment comparison: zero-pad both lists to a common length, then
compare lexicographically. -/
def compareSegs (a b : List Int) : Ordering :=
  lexCompare intCmp (padZeros (max a.length b.length) a) (padZeros (max a.length b.length) b)

/-- A numeric pre-release part: nonempty and all digits. -/
def isNumPart (l : List Char) : Bool := !(l.isEmpty) && l.all isDigitC

/-- Semver comparison of one pre-release part: numeric parts compare by
value and sort before alphanumeric parts, which compare bytewise. -/
def comparePart (p q : List Char) : Ordering :=
  match isNumPart p, isNumPart q with
  | true, true => natCmp (digitsVal p) (digitsVal q)
  | true, false => .lt
  | false, true => .gt
  | false, false => lexCompare charCmp p q

/-- Semver comparison of pre-release identifiers: an empty identifier
sorts after any nonempty one; otherwise compare dot-separated parts. -/
def comparePre (p q : List Char) : Ordering :=
  match p, q with
  | [], [] => .eq
  | [], _ :: _ => .gt
  | _ :: _, [] => .lt
  | p1 :: ps, q1 :: qs => lexCompare comparePart (splitDots (p1 :: ps)) (splitDots (q1 :: qs))

/-- Semver precedence: segments first, then pre-release; metadata ignored. -/
def compareVersion (v w : GoVersion) : Ordering :=
  (compareSegs v.segments w.segments).then (comparePre v.pre w.pre)

/-- The GreaterThan test of the version library. -/
def greaterThan (v w : GoVersion) : Bool :=
  match compareVersion v w with
  | .gt => true
  | _ => false

/-- The base version 0.0.0 that getLastVersion starts from. -/
def v000 : GoVersion := ⟨[0, 0, 0], [], []⟩

/-- Go strings.TrimPrefix on character lists. -/
def trimPfx (s pre : List Char) : List Char :=
  if pre.isPrefixOf s then s.drop pre.length else s

/-- Tag-to-version step of getLastVersion: strip the ref prefix together
with the configured tag prefix, then attempt a semver parse. -/
def parseTag (pfx : String) (ref : String) : Option GoVersion :=
  parseSemverChars (trimPfx ref.data (("refs/tags/" ++ pfx).data))

/-- Loop body of getLastVersion: skip unparsable tags, keep the larger. -/
def processRef (pfx : String) (last : GoVersion) (ref : String) : GoVersion :=
  match parseTag pfx ref with
  | none => last
  | some v => if greaterThan v last then v else last

/-- The getLastVersion resolver over a finite paginated tag source: fold
every page in order, then fail when the result still renders as 0.0.0. -/
def getLastVersion (pages : List (List String)) (pfx : String) : Except String GoVersion :=
  if versionString (pages.foldl (fun acc page => page.foldl (processRef pfx) acc) v000) =
      ("0.0.0")
  then .error ("could not find any versions")
  else .ok (pages.foldl (fun acc page => page.foldl (processRef pfx) acc) v000)

/-- The nextVersion calculator: pad the segments to three, keep major and
minor, increment the patch with 64-bit wrap-around, format with the
configured prefix and a letter v. -/
def nextVersion (v : GoVersion) (pfx : String) : String :=
  pfx ++ ⟨'v' :: intDec ((padTo3 v.segments).getD 0 0) ++ '.' ::
    intDec ((padTo3 v.segments).getD 1 0) ++ '.' ::
    intDec (int64wrap ((padTo3 v.segments).getD 2 0 + 1))⟩

/-- The matching loop of shouldTag over the changed files of a successful
compare call: true as soon as one filename matches. -/
def shouldTagFiles (fileMatch : String → Bool) (files : List String) : Bool :=
  files.any fileMatch

/-- Model of the compiled default pattern .* which matches every string. -/
def matchAllRegexp : String → Bool := fun _ => true

/-- Exit reasons of the orchestrator, in source order. -/
inductive ExitReason where
  | ignoredTrigger
  | missingToken
  | eventReadError
  | eventParseError
  | prNotReady
  | noMergeCommit
  | resolveError
  | compareError
  | noChanges
  | createRefError
  | commentError
  | success
deriving DecidableEq

/-- Exit reasons that go through the fatal path of the source. -/
def isFatalReason : ExitReason → Bool
  | .missingToken => true
  | .eventReadError => true
  | .eventParseError => true
  | .noMergeCommit => true
  | .resolveError => true
  | .compareError => true
  | .createRefError => true
  | .commentError => true
  | _ => false

/-- Outcome of one run: why it stopped and the process exit code. -/
structure MainOutcome where
  reason : ExitReason
  code : Nat
deriving DecidableEq

/-- The fields of the pull-request event payload the program reads. -/
structure PullRequestEvent where
  action : String
  merged : Bool
  mergeCommitSHA : String

/-- One run environment: configuration, trigger data and collaborator
responses. The eventPayload field is none when the event file cannot be
read and some none when it cannot be unmarshalled. -/
structure MainEnv where
  noExConfig : Bool
  neverFail : Bool
  fileRegexp : Option (String → Bool)
  tagPfx : String
  eventName : String
  token : String
  eventPayload : Option (Option PullRequestEvent)
  listRefsOk : Bool
  pages : List (List String)
  compareFiles : Option (List String)
  createRefOk : Bool
  commentOk : Bool

/-- Current no-op exit status: 0 when NO_EX_CONFIG is true, else 78. -/
def exConfigVal (e : MainEnv) : Nat := if e.noExConfig then 0 else 78

/-- Current fatal exit status: the no-op status when NEVER_FAIL is true, else 1. -/
def fatalExitVal (e : MainEnv) : Nat := if e.neverFail then exConfigVal e else 1

/-- Compiled file pattern: the configured one, or the match-all default. -/
def fileMatcher (e : MainEnv) : String → Bool := e.fileRegexp.getD matchAllRegexp

/-- Control flow of main, in source order: trigger gate, token gate,
event read and unmarshal, merged-PR gate, merge commit, version
resolution, changed-file decision, tag creation, comment creation. A
plain return after the no-changes message exits with status 0. -/
def mainModel (e : MainEnv) : MainOutcome :=
  if e.eventName ≠ ("pull_request") then ⟨.ignoredTrigger, exConfigVal e⟩
  else if e.token = ("") then ⟨.missingToken, fatalExitVal e⟩
  else match e.eventPayload with
    | none => ⟨.eventReadError, fatalExitVal e⟩
    | some none => ⟨.eventParseError, fatalExitVal e⟩
    | some (some ev) =>
      if ev.action ≠ ("closed") ∨ ev.merged = false then ⟨.prNotReady, exConfigVal e⟩
      else if ev.mergeCommitSHA = ("") then ⟨.noMergeCommit, fatalExitVal e⟩
      else if e.listRefsOk = false then ⟨.resolveError, fatalExitVal e⟩
      else match getLastVersion e.pages e.tagPfx with
        | .error _ => ⟨.resolveError, fatalExitVal e⟩
        | .ok _ =>
          match e.compareFiles with
          | none => ⟨.compareError, fatalExitVal e⟩
          | some files =>
            if shouldTagFiles (fileMatcher e) files = false then ⟨.noChanges, 0⟩
            else if e.createRefOk = false then ⟨.createRefError, fatalExitVal e⟩
            else if e.commentOk = false then ⟨.commentError, fatalExitVal e⟩
            else ⟨.success, 0⟩

/-- Shape of the build-metadata output variant described by the
specification: letter v, three numeric segments, a plus, a date written
YYYY-MM-DD and a twelve-character hexadecimal commit-ref abbreviation. -/
def hexDigitC (c : Char) : Bool :=
  isDigitC c || (97 ≤ c.toNat && c.toNat ≤ 102) || (65 ≤ c.toNat && c.toNat ≤ 70)

/-- The build-metadata output shape of the specification, as a predicate
on the produced string. -/
def metadataShape (s : String) : Prop :=
  ∃ (maj minor patch sha : List Char) (y1 y2 y3 y4 m1 m2 d1 d2 : Char),
    maj ≠ [] ∧ (∀ c ∈ maj, isDigitC c = true) ∧
    minor ≠ [] ∧ (∀ c ∈ minor, isDigitC c = true) ∧
    patch ≠ [] ∧ (∀ c ∈ patch, isDigitC c = true) ∧
    isDigitC y1 = true ∧ isDigitC y2 = true ∧ isDigitC y3 = true ∧ isDigitC y4 = true ∧
    isDigitC m1 = true ∧ isDigitC m2 = true ∧ isDigitC d1 = true ∧ isDigitC d2 = true ∧
    sha.length = 12 ∧ (∀ c ∈ sha, hexDigitC c = true) ∧
    s.data = 'v' :: (maj ++ '.' :: (minor ++ '.' :: (patch ++ '+' ::
      (y1 :: y2 :: y3 :: y4 :: '-' :: m1 :: m2 :: '-' :: d1 :: d2 :: '.' :: sha))))

/-! ### Ordering algebra and comparator laws -/

theorem ordThen_assoc (a b c : Ordering) : (a.then b).then c = a.then (b.then c) := by
  cases a <;> rfl

theorem ordThen_eq (o : Ordering) : o.then .eq = o := by
  cases o <;> rfl

theorem ordThen_gt (o : Ordering) : Ordering.gt.then o = .gt := rfl

instance : Batteries.TransCmp intCmp where
  symm a b := by
    unfold intCmp; split_ifs <;> first | rfl | omega
  le_trans {a b c} h1 h2 := by
    unfold intCmp at h1 h2 ⊢; split_ifs at h1 h2 ⊢ <;> first | omega | simp_all

instance : Batteries.TransCmp natCmp where
  symm a b := by
    unfold natCmp; split_ifs <;> first | rfl | omega
  le_trans {a b c} h1 h2 := by
    unfold natCmp at h1 h2 ⊢; split_ifs at h1 h2 ⊢ <;> first | omega | simp_all

/-- Comparator laws transport along any function into the compared type. -/
theorem transCmpComap (f : β → α) (cmp : α → α → Ordering) (h : Batteries.TransCmp cmp) :
    Batteries.TransCmp (fun x y => cmp (f x) (f y)) where
  symm a b := h.symm (f a) (f b)
  le_trans h1 h2 := h.le_trans h1 h2

instance : Batteries.TransCmp charCmp :=
  transCmpComap Char.toNat natCmp inferInstance

theorem lexCompare_symm (cmp : α → α → Ordering) [Batteries.OrientedCmp cmp] :
    ∀ a b : List α, (lexCompare cmp a b).swap = lexCompare cmp b a
  | [], [] => rfl
  | [], _ :: _ => rfl
  | _ :: _, [] => rfl
  | a :: as, b :: bs => by
    simp only [lexCompare, Ordering.swap_then, Batteries.OrientedCmp.symm,
      lexCompare_symm cmp as bs]

theorem lexCompare_nil_left (cmp : α → α → Ordering) (c : List α) :
    lexCompare cmp [] c ≠ .gt := by
  cases c <;> simp [lexCompare]

theorem lexCompare_le_trans (cmp : α → α → Ordering) [Batteries.TransCmp cmp] :
    ∀ a b c : List α, lexCompare cmp a b ≠ .gt → lexCompare cmp b c ≠ .gt →
      lexCompare cmp a c ≠ .gt
  | [], _, c, _, _ => lexCompare_nil_left cmp c
  | _ :: _, [], _, h1, _ => absurd rfl h1
  | _ :: _, _ :: _, [], _, h2 => absurd rfl h2
  | a :: as, b :: bs, c :: cs, h1, h2 => by
    rw [lexCompare, Ne, Ordering.then_eq_gt, not_or, not_and] at h1 h2 ⊢
    refine ⟨Batteries.TransCmp.le_trans h1.1 h2.1, fun he => ?_⟩
    have eab : cmp a b = .eq := by
      cases e : cmp a b with
      | lt => exact absurd (Batteries.TransCmp.lt_le_trans e h2.1) (by simp [he])
      | eq => rfl
      | gt => exact absurd e h1.1
    have ebc : cmp b c = .eq := by
      have : cmp a c = cmp b c := Batteries.TransCmp.cmp_congr_left eab
      rw [← this, he]
    exact lexCompare_le_trans cmp as bs cs (h1.2 eab) (h2.2 ebc)

instance lexCompareTrans (cmp : α → α → Ordering) [Batteries.TransCmp cmp] :
    Batteries.TransCmp (lexCompare cmp) where
  symm a b := lexCompare_symm cmp a b
  le_trans h1 h2 := lexCompare_le_trans cmp _ _ _ h1 h2

theorem lexCompare_self (cmp : α → α → Ordering) (h : ∀ x, cmp x x = .eq) :
    ∀ l : List α, lexCompare cmp l l = .eq
  | [] => rfl
  | a :: as => by simp [lexCompare, h a, lexCompare_self cmp h as, Ordering.then]

theorem lexCompare_append_of_length (cmp : α → α → Ordering) :
    ∀ (u v s t : List α), u.length = v.length →
      lexCompare cmp (u ++ s) (v ++ t) = (lexCompare cmp u v).then (lexCompare cmp s t)
  | [], [], s, t, _ => by simp [lexCompare, Ordering.then]
  | [], _ :: _, _, _, h => by simp at h
  | _ :: _, [], _, _, h => by simp at h
  | a :: as, b :: bs, s, t, h => by
    have e1 : (a :: as) ++ s = a :: (as ++ s) := rfl
    have e2 : (b :: bs) ++ t = b :: (bs ++ t) := rfl
    rw [e1, e2]
    show (cmp a b).then (lexCompare cmp (as ++ s) (bs ++ t)) = _
    rw [lexCompare_append_of_length cmp as bs s t (by simpa using h), ← ordThen_assoc]
    rfl

theorem padZeros_length (l : List Int) (n : Nat) (h : l.length ≤ n) :
    (padZeros n l).length = n := by
  simp [padZeros]; omega

theorem padZeros_add (l : List Int) (n k : Nat) (h : l.length ≤ n) :
    padZeros (n + k) l = padZeros n l ++ List.replicate k 0 := by
  unfold padZeros
  rw [List.append_assoc, ← List.replicate_add]
  congr 2
  omega

theorem compareSegs_pad_eval (a b : List Int) (N : Nat)
    (ha : a.length ≤ N) (hb : b.length ≤ N) :
    compareSegs a b = lexCompare intCmp (padZeros N a) (padZeros N b) := by
  unfold compareSegs
  have hM : max a.length b.length ≤ N := by omega
  obtain ⟨k, hk⟩ : ∃ k, N = max a.length b.length + k := ⟨N - max a.length b.length, by omega⟩
  subst hk
  rw [padZeros_add a _ k (Nat.le_max_left _ _), padZeros_add b _ k (Nat.le_max_right _ _),
    lexCompare_append_of_length]
  · rw [lexCompare_self intCmp (fun x => Batteries.OrientedCmp.cmp_refl), ordThen_eq]
  · rw [padZeros_length _ _ (Nat.le_max_left _ _), padZeros_length _ _ (Nat.le_max_right _ _)]

instance : Batteries.TransCmp compareSegs where
  symm a b := by
    unfold compareSegs
    rw [Nat.max_comm b.length a.length]
    exact lexCompare_symm intCmp _ _
  le_trans {a b c} h1 h2 := by
    rw [compareSegs_pad_eval a b (max a.length (max b.length c.length)) (by omega) (by omega)]
      at h1
    rw [compareSegs_pad_eval b c (max a.length (max b.length c.length)) (by omega) (by omega)]
      at h2
    rw [compareSegs_pad_eval a c (max a.length (max b.length c.length)) (by omega) (by omega)]
    exact lexCompare_le_trans intCmp _ _ _ h1 h2

theorem comparePart_num_num {p q : List Char} (hp : isNumPart p = true)
    (hq : isNumPart q = true) : comparePart p q = natCmp (digitsVal p) (digitsVal q) := by
  unfold comparePart; rw [hp, hq]

theorem comparePart_num_alpha {p q : List Char} (hp : isNumPart p = true)
    (hq : isNumPart q = false) : comparePart p q = .lt := by
  unfold comparePart; rw [hp, hq]

theorem comparePart_alpha_num {p q : List Char} (hp : isNumPart p = false)
    (hq : isNumPart q = true) : comparePart p q = .gt := by
  unfold comparePart; rw [hp, hq]

theorem comparePart_alpha_alpha {p q : List Char} (hp : isNumPart p = false)
    (hq : isNumPart q = false) : comparePart p q = lexCompare charCmp p q := by
  unfold comparePart; rw [hp, hq]

instance : Batteries.TransCmp comparePart where
  symm p q := by
    rcases hp : isNumPart p <;> rcases hq : isNumPart q
    · rw [comparePart_alpha_alpha hp hq, comparePart_alpha_alpha hq hp]
      exact lexCompare_symm charCmp p q
    · rw [comparePart_alpha_num hp hq, comparePart_num_alpha hq hp]; rfl
    · rw [comparePart_num_alpha hp hq, comparePart_alpha_num hq hp]; rfl
    · rw [comparePart_num_num hp hq, comparePart_num_num hq hp]
      exact Batteries.OrientedCmp.symm _ _
  le_trans {p q r} h1 h2 := by
    rcases hp : isNumPart p <;> rcases hq : isNumPart q <;> rcases hr : isNumPart r
    · rw [comparePart_alpha_alpha hp hq] at h1
      rw [comparePart_alpha_alpha hq hr] at h2
      rw [comparePart_alpha_alpha hp hr]
      exact lexCompare_le_trans charCmp p q r h1 h2
    · rw [comparePart_alpha_num hq hr] at h2
      exact absurd rfl h2
    · rw [comparePart_alpha_num hp hq] at h1
      exact absurd rfl h1
    · rw [comparePart_alpha_num hp hq] at h1
      exact absurd rfl h1
    · rw [comparePart_num_alpha hp hr]
      decide
    · rw [comparePart_alpha_num hq hr] at h2
      exact absurd rfl h2
    · rw [comparePart_num_alpha hp hr]
      decide
    · rw [comparePart_num_num hp hq] at h1
      rw [comparePart_num_num hq hr] at h2
      rw [comparePart_num_num hp hr]
      exact Batteries.TransCmp.le_trans h1 h2

instance : Batteries.TransCmp comparePre where
  symm p q := by
    cases p <;> cases q <;> simp only [comparePre]
    · rfl
    · rfl
    · rfl
    · exact lexCompare_symm comparePart _ _
  le_trans {p q r} h1 h2 := by
    cases p <;> cases q <;> cases r <;> simp only [comparePre] at h1 h2 ⊢ <;>
      first
        | exact lexCompare_le_trans comparePart _ _ _ h1 h2
        | simp_all

/-- Comparator laws for a lexicographic pairing of two projections. -/
theorem transCmpThen {f : γ → α} {g : γ → β} (c1 : α → α → Ordering) (c2 : β → β → Ordering)
    (hc1 : Batteries.TransCmp c1) (hc2 : Batteries.TransCmp c2) :
    Batteries.TransCmp (fun x y : γ => (c1 (f x) (f y)).then (c2 (g x) (g y))) where
  symm a b := by
    simp only [Ordering.swap_then, hc1.symm, hc2.symm]
  le_trans {a b c} h1 h2 := by
    rw [Ne, Ordering.then_eq_gt, not_or, not_and] at h1 h2 ⊢
    refine ⟨hc1.le_trans h1.1 h2.1, fun he => ?_⟩
    have eab : c1 (f a) (f b) = .eq := by
      cases e : c1 (f a) (f b) with
      | lt => exact absurd (hc1.lt_le_trans e h2.1) (by simp [he])
      | eq => rfl
      | gt => exact absurd e h1.1
    have ebc : c1 (f b) (f c) = .eq := by
      have : c1 (f a) (f c) = c1 (f b) (f c) := hc1.cmp_congr_left eab
      rw [← this, he]
    exact hc2.le_trans (h1.2 eab) (h2.2 ebc)

instance compareVersionTrans : Batteries.TransCmp compareVersion :=
  @transCmpThen GoVersion (List Int) (List Char) GoVersion.segments GoVersion.pre
    compareSegs comparePre inferInstance inferInstance

/-! ### Decimal rendering facts -/

theorem digitChar_isDigit {d : Nat} (h : d < 10) : isDigitC (digitChar d) = true := by
  interval_cases d <;> decide

theorem digitVal_digitChar {d : Nat} (h : d < 10) : digitVal (digitChar d) = d := by
  interval_cases d <;> decide

theorem digitsVal_append_single (l : List Char) (c : Char) :
    digitsVal (l ++ [c]) = 10 * digitsVal l + digitVal c := by
  unfold digitsVal
  rw [List.foldl_append]
  rfl

theorem natDecF_spec : ∀ fuel n, n < fuel →
    natDecF fuel n ≠ [] ∧ (∀ c ∈ natDecF fuel n, isDigitC c = true) ∧
      digitsVal (natDecF fuel n) = n
  | 0, n, h => absurd h (Nat.not_lt_zero n)
  | fuel + 1, n, h => by
    unfold natDecF
    by_cases h10 : n < 10
    · rw [if_pos h10]
      refine ⟨by simp, ?_, ?_⟩
      · intro c hc
        simp only [List.mem_singleton] at hc
        rw [hc]
        exact digitChar_isDigit h10
      · show 10 * 0 + digitVal (digitChar n) = n
        rw [digitVal_digitChar h10]
        omega
    · rw [if_neg h10]
      have hdiv : n / 10 < fuel := by omega
      obtain ⟨hne, hdig, hval⟩ := natDecF_spec fuel (n / 10) hdiv
      refine ⟨by simp, ?_, ?_⟩
      · intro c hc
        rcases List.mem_append.1 hc with hc | hc
        · exact hdig c hc
        · simp only [List.mem_singleton] at hc
          rw [hc]
          exact digitChar_isDigit (Nat.mod_lt n (by norm_num))
      · rw [digitsVal_append_single, hval, digitVal_digitChar (Nat.mod_lt n (by norm_num))]
        omega

theorem natDec_ne_nil (n : Nat) : natDec n ≠ [] :=
  (natDecF_spec (n + 1) n (Nat.lt_succ_self n)).1

theorem natDec_digits (n : Nat) : ∀ c ∈ natDec n, isDigitC c = true :=
  (natDecF_spec (n + 1) n (Nat.lt_succ_self n)).2.1

theorem digitsVal_natDec (n : Nat) : digitsVal (natDec n) = n :=
  (natDecF_spec (n + 1) n (Nat.lt_succ_self n)).2.2

theorem intDec_nonneg {n : Int} (h : 0 ≤ n) : intDec n = natDec n.toNat := by
  unfold intDec
  rw [if_neg (by omega)]

theorem intDec_chars (n : Int) : ∀ c ∈ intDec n, isDigitC c = true ∨ c = '-' := by
  unfold intDec
  split_ifs
  · intro c hc
    rcases List.mem_cons.1 hc with hc | hc
    · exact Or.inr hc
    · exact Or.inl (natDec_digits _ c hc)
  · intro c hc
    exact Or.inl (natDec_digits _ c hc)

theorem not_mem_intDec {c : Char} (h1 : isDigitC c = false) (h2 : c ≠ '-') (n : Int) :
    c ∉ intDec n := by
  intro hc
  rcases intDec_chars n c hc with hc1 | hc1
  · rw [h1] at hc1
    exact Bool.false_ne_true hc1
  · exact h2 hc1

theorem intDec_ne_nil (n : Int) : intDec n ≠ [] := by
  unfold intDec
  split_ifs
  · simp
  · exact natDec_ne_nil _

theorem intDec_eq_zero {n : Int} (h : intDec n = ['0']) : n = 0 := by
  unfold intDec at h
  split_ifs at h with hn
  · simp only [List.cons.injEq] at h
    exact absurd h.1 (by decide)
  · have := digitsVal_natDec n.toNat
    rw [h] at this
    have h0 : digitsVal ['0'] = 0 := by decide
    omega

/-! ### GreaterThan and the resolver fold -/

theorem greaterThan_iff {v w : GoVersion} :
    greaterThan v w = true ↔ compareVersion v w = .gt := by
  unfold greaterThan
  cases h : compareVersion v w <;> simp

theorem compareVersion_refl (v : GoVersion) : compareVersion v v = .eq :=
  Batteries.OrientedCmp.cmp_refl

theorem processRef_none {pfx t : String} {acc : GoVersion} (h : parseTag pfx t = none) :
    processRef pfx acc t = acc := by
  unfold processRef
  rw [h]

theorem processRef_some {pfx t : String} {acc v : GoVersion} (h : parseTag pfx t = some v) :
    processRef pfx acc t = if greaterThan v acc then v else acc := by
  unfold processRef
  rw [h]

theorem foldl_up (pfx : String) : ∀ (l : List String) (acc : GoVersion),
    l.foldl (processRef pfx) acc = acc ∨
      compareVersion (l.foldl (processRef pfx) acc) acc = .gt
  | [], _ => Or.inl rfl
  | t :: rest, acc => by
    rw [List.foldl_cons]
    rcases e : parseTag pfx t with _ | v
    · rw [processRef_none e]
      exact foldl_up pfx rest acc
    · rw [processRef_some e]
      by_cases hg : greaterThan v acc
      · rw [if_pos hg]
        rcases foldl_up pfx rest v with h | h
        · right
          rw [h]
          exact greaterThan_iff.1 hg
        · right
          exact Batteries.TransCmp.gt_trans h (greaterThan_iff.1 hg)
      · rw [if_neg hg]
        exact foldl_up pfx rest acc

theorem foldl_mem (pfx : String) : ∀ (l : List String) (acc : GoVersion),
    l.foldl (processRef pfx) acc = acc ∨
      ∃ t ∈ l, parseTag pfx t = some (l.foldl (processRef pfx) acc)
  | [], _ => Or.inl rfl
  | t :: rest, acc => by
    rw [List.foldl_cons]
    rcases e : parseTag pfx t with _ | v
    · rw [processRef_none e]
      rcases foldl_mem pfx rest acc with h | ⟨u, hu, hp⟩
      · exact Or.inl h
      · exact Or.inr ⟨u, List.mem_cons_of_mem _ hu, hp⟩
    · rw [processRef_some e]
      by_cases hg : greaterThan v acc
      · rw [if_pos hg]
        rcases foldl_mem pfx rest v with h | ⟨u, hu, hp⟩
        · exact Or.inr ⟨t, List.mem_cons_self _ _, by rw [h]; exact e⟩
        · exact Or.inr ⟨u, List.mem_cons_of_mem _ hu, hp⟩
      · rw [if_neg hg]
        rcases foldl_mem pfx rest acc with h | ⟨u, hu, hp⟩
        · exact Or.inl h
        · exact Or.inr ⟨u, List.mem_cons_of_mem _ hu, hp⟩

theorem foldl_ub (pfx : String) : ∀ (l : List String) (acc : GoVersion) (t : String)
    (v : GoVersion), t ∈ l → parseTag pfx t = some v →
      compareVersion v (l.foldl (processRef pfx) acc) ≠ .gt
  | [], _, t, _, ht, _ => absurd ht (List.not_mem_nil t)
  | t0 :: rest, acc, t, v, ht, hp => by
    rw [List.foldl_cons]
    rcases List.mem_cons.1 ht with rfl | hmem
    · rw [processRef_some hp]
      by_cases hg : greaterThan v acc
      · rw [if_pos hg]
        intro hgt
        rcases foldl_up pfx rest v with h | h
        · rw [h] at hgt
          rw [compareVersion_refl v] at hgt
          exact Ordering.noConfusion hgt
        · have := Batteries.TransCmp.gt_trans hgt h
          rw [compareVersion_refl v] at this
          exact Ordering.noConfusion this
      · rw [if_neg hg]
        intro hgt
        have hva : compareVersion v acc ≠ .gt := fun hh => hg (greaterThan_iff.2 hh)
        rcases foldl_up pfx rest acc with h | h
        · rw [h] at hgt
          exact hva hgt
        · exact hva (Batteries.TransCmp.gt_trans hgt h)
    · exact foldl_ub pfx rest (processRef pfx acc t0) t v hmem hp

theorem foldl_skip_none (pfx : String) : ∀ (l : List String) (acc : GoVersion),
    (∀ t ∈ l, parseTag pfx t = none) → l.foldl (processRef pfx) acc = acc
  | [], _, _ => rfl
  | t :: rest, acc, h => by
    rw [List.foldl_cons, processRef_none (h t (List.mem_cons_self _ _))]
    exact foldl_skip_none pfx rest acc (fun u hu => h u (List.mem_cons_of_mem _ hu))

theorem nestedFoldl_eq_join (pfx : String) : ∀ (pages : List (List String)) (acc : GoVersion),
    pages.foldl (fun a page => page.foldl (processRef pfx) a) acc =
      pages.flatten.foldl (processRef pfx) acc
  | [], _ => rfl
  | pg :: rest, acc => by
    rw [List.foldl_cons, List.flatten_cons, List.foldl_append]
    exact nestedFoldl_eq_join pfx rest _

/-! ### Parser evaluation lemmas -/

theorem digit_mem_ne {A : List Char} (hAd : ∀ c ∈ A, isDigitC c = true) {c : Char}
    (hc : isDigitC c = false) : c ∉ A := by
  intro h
  rw [hAd c h] at hc
  exact Bool.noConfusion hc

theorem stripV_v (l : List Char) : stripV ('v' :: l) = l := by
  show (if ('v' : Char) = 'v' then l else 'v' :: l) = l
  rw [if_pos rfl]

theorem stripV_ne {c : Char} (h : c ≠ 'v') (l : List Char) : stripV (c :: l) = c :: l := by
  show (if c = 'v' then l else c :: l) = c :: l
  rw [if_neg h]

theorem breakAt_eq_none {k : Char} : ∀ {l : List Char}, k ∉ l → breakAt k l = none
  | [], _ => rfl
  | x :: xs, h => by
    show (if x = k then some ([], xs)
      else match breakAt k xs with
        | none => none
        | some (a, b) => some (x :: a, b)) = none
    rw [if_neg (fun e => h (by rw [← e]; exact List.mem_cons_self x xs))]
    rw [breakAt_eq_none (fun hh => h (List.mem_cons_of_mem _ hh))]

theorem breakAt_cons_ne {k c : Char} (h : c ≠ k) (xs : List Char) :
    breakAt k (c :: xs) = match breakAt k xs with
      | none => none
      | some (a, b) => some (c :: a, b) := by
  show (if c = k then some ([], xs)
    else match breakAt k xs with
      | none => none
      | some (a, b) => some (c :: a, b)) = _
  rw [if_neg h]

theorem breakAt_cons_self (k : Char) (xs : List Char) :
    breakAt k (k :: xs) = some ([], xs) := by
  show (if k = k then some ([], xs)
    else match breakAt k xs with
      | none => none
      | some (a, b) => some (k :: a, b)) = _
  rw [if_pos rfl]

theorem splitDotsP_cons (c : Char) (l : List Char) :
    splitDotsP (c :: l) = if c = '.' then ([], (splitDotsP l).1 :: (splitDotsP l).2)
      else (c :: (splitDotsP l).1, (splitDotsP l).2) := rfl

theorem splitDotsP_append_nodot : ∀ (A r : List Char), '.' ∉ A →
    splitDotsP (A ++ r) = (A ++ (splitDotsP r).1, (splitDotsP r).2)
  | [], r, _ => by simp
  | c :: A, r, h => by
    have hc : c ≠ '.' := by
      intro e
      subst e
      exact h (List.mem_cons_self _ _)
    show splitDotsP (c :: (A ++ r)) = _
    rw [splitDotsP_cons, if_neg hc,
      splitDotsP_append_nodot A r (fun hh => h (List.mem_cons_of_mem _ hh))]
    rfl

theorem splitDots_append_dot (A r : List Char) (h : '.' ∉ A) :
    splitDots (A ++ '.' :: r) = A :: splitDots r := by
  unfold splitDots
  rw [splitDotsP_append_nodot A ('.' :: r) h, splitDotsP_cons, if_pos rfl]
  simp

theorem splitDots_nodot (A : List Char) (h : '.' ∉ A) : splitDots A = [A] := by
  have e := splitDotsP_append_nodot A [] h
  rw [show splitDotsP ([] : List Char) = ([], []) from rfl] at e
  simp only [List.append_nil] at e
  unfold splitDots
  rw [e]

theorem parseNumSeg_digits {l : List Char} (h1 : l ≠ []) (h2 : ∀ c ∈ l, isDigitC c = true)
    (h3 : digitsVal l ≤ 9223372036854775807) :
    parseNumSeg l = some ((digitsVal l : Int)) := by
  unfold parseNumSeg
  have e1 : l.isEmpty = false := by
    cases l
    · exact absurd rfl h1
    · rfl
  have e2 : l.all isDigitC = true := List.all_eq_true.2 h2
  simp [e1, e2, h3]

theorem parseCore_nil (preOpt metaOpt : Option (List Char)) :
    parseCore [] preOpt metaOpt = none := rfl

theorem parseCore_bad_head {c : Char} (h1 : isDigitC c = false) (sp : List Char)
    (preOpt metaOpt : Option (List Char)) : parseCore (c :: sp) preOpt metaOpt = none := by
  unfold parseCore
  by_cases hdot : c = '.'
  · subst hdot
    rw [show splitDots ('.' :: sp) = [] :: ((splitDotsP sp).1 :: (splitDotsP sp).2) from by
      unfold splitDots
      rw [splitDotsP_cons, if_pos rfl]]
    have hnil : mapMO parseNumSeg ([] :: (splitDotsP sp).1 :: (splitDotsP sp).2) = none := by
      simp only [mapMO]
      rw [show parseNumSeg ([] : List Char) = none from rfl]
    rw [hnil]
  · rw [show splitDots (c :: sp) = (c :: (splitDotsP sp).1) :: (splitDotsP sp).2 from by
      unfold splitDots
      rw [splitDotsP_cons, if_neg hdot]]
    have hseg : parseNumSeg (c :: (splitDotsP sp).1) = none := by
      unfold parseNumSeg
      have hall : (c :: (splitDotsP sp).1).all isDigitC = false := by
        simp [List.all_cons, h1]
      simp [hall]
    have hmapn : mapMO parseNumSeg ((c :: (splitDotsP sp).1) :: (splitDotsP sp).2) = none := by
      simp only [mapMO]
      rw [hseg]
    rw [hmapn]

theorem parseMain_bad_head {c : Char} (h1 : isDigitC c = false) (m : List Char)
    (metaOpt : Option (List Char)) : parseMain (c :: m) metaOpt = none := by
  by_cases hm : c = '-'
  · subst hm
    unfold parseMain
    rw [breakAt_cons_self]
    exact parseCore_nil (some m) metaOpt
  · unfold parseMain
    rw [breakAt_cons_ne hm m]
    cases hb : breakAt '-' m with
    | none => exact parseCore_bad_head h1 m none metaOpt
    | some ab =>
      obtain ⟨a, b⟩ := ab
      exact parseCore_bad_head h1 a (some b) metaOpt

theorem parseSemver_bad_head {c : Char} (h1 : isDigitC c = false) (h2 : c ≠ 'v')
    (l : List Char) : parseSemverChars (c :: l) = none := by
  unfold parseSemverChars
  rw [stripV_ne h2]
  by_cases hp : c = '+'
  · subst hp
    rw [breakAt_cons_self]
    show parseMain [] (some l) = none
    unfold parseMain
    exact parseCore_nil none (some l)
  · rw [breakAt_cons_ne hp l]
    cases hb : breakAt '+' l with
    | none => exact parseMain_bad_head h1 l none
    | some ab =>
      obtain ⟨a, b⟩ := ab
      exact parseMain_bad_head h1 a (some b)

theorem parseSemver_plain (A B C : List Char)
    (hA : A ≠ []) (hAd : ∀ c ∈ A, isDigitC c = true) (hAv : digitsVal A ≤ 9223372036854775807)
    (hB : B ≠ []) (hBd : ∀ c ∈ B, isDigitC c = true) (hBv : digitsVal B ≤ 9223372036854775807)
    (hC : C ≠ []) (hCd : ∀ c ∈ C, isDigitC c = true) (hCv : digitsVal C ≤ 9223372036854775807) :
    parseSemverChars ('v' :: (A ++ '.' :: (B ++ '.' :: C))) =
      some ⟨[((digitsVal A : Int)), ((digitsVal B : Int)), ((digitsVal C : Int))],
        [], []⟩ := by
  have hmem : ∀ {c : Char}, isDigitC c = false → c ≠ '.' →
      c ∉ A ++ '.' :: (B ++ '.' :: C) := by
    intro c hcd hcdot hcmem
    rcases List.mem_append.1 hcmem with hc | hc
    · exact digit_mem_ne hAd hcd hc
    · rcases List.mem_cons.1 hc with hc | hc
      · exact hcdot hc
      · rcases List.mem_append.1 hc with hc | hc
        · exact digit_mem_ne hBd hcd hc
        · rcases List.mem_cons.1 hc with hc | hc
          · exact hcdot hc
          · exact digit_mem_ne hCd hcd hc
  have hmap : mapMO parseNumSeg [A, B, C] =
      some [((digitsVal A : Int)), ((digitsVal B : Int)), ((digitsVal C : Int))] := by
    simp only [mapMO]
    rw [parseNumSeg_digits hA hAd hAv, parseNumSeg_digits hB hBd hBv,
      parseNumSeg_digits hC hCd hCv]
  unfold parseSemverChars
  rw [stripV_v]
  rw [breakAt_eq_none (hmem (by decide) (by decide))]
  show parseMain (A ++ '.' :: (B ++ '.' :: C)) none = _
  unfold parseMain
  rw [breakAt_eq_none (hmem (by decide) (by decide))]
  show parseCore (A ++ '.' :: (B ++ '.' :: C)) none none = _
  unfold parseCore
  rw [splitDots_append_dot A _ (digit_mem_ne hAd (by decide)),
    splitDots_append_dot B _ (digit_mem_ne hBd (by decide)),
    splitDots_nodot C (digit_mem_ne hCd (by decide)), hmap]
  rfl

/-! ### Rendered string analysis and nextVersion helpers -/

theorem sep_split_inj {c : Char} : ∀ (x y u w : List Char), c ∉ x → c ∉ y →
    x ++ c :: u = y ++ c :: w → x = y ∧ u = w
  | [], [], _, _, _, _, h => ⟨rfl, by simpa using h⟩
  | [], b :: ys, u, w, _, hy, h => by
    simp only [List.nil_append, List.cons_append, List.cons.injEq] at h
    rw [h.1] at hy
    exact absurd (List.mem_cons_self _ _) hy
  | a :: xs, [], u, w, hx, _, h => by
    simp only [List.cons_append, List.nil_append, List.cons.injEq] at h
    rw [← h.1] at hx
    exact absurd (List.mem_cons_self _ _) hx
  | a :: xs, b :: ys, u, w, hx, hy, h => by
    simp only [List.cons_append, List.cons.injEq] at h
    obtain ⟨h1, h2⟩ := h
    obtain ⟨e1, e2⟩ := sep_split_inj xs ys u w (fun hh => hx (List.mem_cons_of_mem _ hh))
      (fun hh => hy (List.mem_cons_of_mem _ hh)) h2
    rw [h1, e1]
    exact ⟨rfl, e2⟩

theorem joinDotsC_cons2 (x y : List Char) (zs : List (List Char)) :
    joinDotsC (x :: y :: zs) = x ++ '.' :: joinDotsC (y :: zs) := rfl

theorem versionChars_000 {v : GoVersion} (h : versionCharsOf v = ['0', '.', '0', '.', '0']) :
    v.segments = [0, 0, 0] ∧ v.pre = [] := by
  unfold versionCharsOf at h
  have hpre : v.pre = [] := by
    by_contra hp
    rw [if_neg hp] at h
    have hm : '-' ∈ (['0', '.', '0', '.', '0'] : List Char) := by
      rw [← h]
      simp
    exact absurd hm (by decide)
  rw [hpre, if_pos rfl] at h
  have hmeta : v.metadata = [] := by
    by_contra hp
    rw [if_neg hp] at h
    have hm : '+' ∈ (['0', '.', '0', '.', '0'] : List Char) := by
      rw [← h]
      simp
    exact absurd hm (by decide)
  rw [hmeta, if_pos rfl] at h
  simp only [List.append_nil] at h
  refine ⟨?_, hpre⟩
  rcases hs : v.segments with _ | ⟨s, _ | ⟨t, _ | ⟨u, rest⟩⟩⟩ <;> rw [hs] at h
  · simp [joinDotsC] at h
  · have hdot : '.' ∈ intDec s := by
      rw [show joinDotsC ([s].map intDec) = intDec s from rfl] at h
      rw [h]
      decide
    exact absurd hdot (not_mem_intDec (by decide) (by decide) s)
  · rw [show ([s, t].map intDec) = [intDec s, intDec t] from rfl,
      joinDotsC_cons2, show joinDotsC [intDec t] = intDec t from rfl] at h
    have e := @sep_split_inj '.' (intDec s) ['0'] (intDec t) ['0', '.', '0']
      (not_mem_intDec (by decide) (by decide) s) (by decide) (by simpa using h)
    have hdot : '.' ∈ intDec t := by
      rw [e.2]
      decide
    exact absurd hdot (not_mem_intDec (by decide) (by decide) t)
  · rw [show ((s :: t :: u :: rest).map intDec) =
      intDec s :: intDec t :: intDec u :: rest.map intDec from rfl, joinDotsC_cons2] at h
    have e := @sep_split_inj '.' (intDec s) ['0']
      (joinDotsC (intDec t :: intDec u :: rest.map intDec)) ['0', '.', '0']
      (not_mem_intDec (by decide) (by decide) s) (by decide) (by simpa using h)
    have hs0 : s = 0 := intDec_eq_zero e.1
    have h2 := e.2
    rw [joinDotsC_cons2] at h2
    have e2 := @sep_split_inj '.' (intDec t) ['0'] (joinDotsC (intDec u :: rest.map intDec))
      ['0'] (not_mem_intDec (by decide) (by decide) t) (by decide) (by simpa using h2)
    have ht0 : t = 0 := intDec_eq_zero e2.1
    rcases rest with _ | ⟨r, rs⟩
    · have e3 : intDec u = ['0'] := by
        simpa [joinDotsC] using e2.2
      rw [hs0, ht0, intDec_eq_zero e3]
    · exfalso
      have h3 := e2.2
      rw [List.map_cons, joinDotsC_cons2] at h3
      have hdot : '.' ∈ (['0'] : List Char) := by
        rw [← h3]
        simp
      exact absurd hdot (by decide)

theorem padTo3_getD (l : List Int) (i : Nat) (hi : i < 3) :
    (padTo3 l).getD i 0 = l.getD i 0 := by
  rcases l with _ | ⟨a, _ | ⟨b, _ | ⟨c, rest⟩⟩⟩
  · interval_cases i <;> rfl
  · interval_cases i <;> rfl
  · interval_cases i <;> rfl
  · have h0 : 3 - (a :: b :: c :: rest).length = 0 := by
      simp [List.length_cons]
    unfold padTo3
    rw [h0]
    simp

theorem int64wrap_id {n : Int} (h0 : 0 ≤ n) (h1 : n < 2 ^ 63) : int64wrap n = n := by
  have e63 : (2 : Int) ^ 63 = 9223372036854775808 := by norm_num
  have e64 : (2 : Int) ^ 64 = 18446744073709551616 := by norm_num
  unfold int64wrap
  rw [e63] at h1
  rw [e63, e64, Int.emod_eq_of_lt (by omega) (by omega)]
  omega

theorem intCmp_self (a : Int) : intCmp a a = .eq := by
  unfold intCmp
  rw [if_neg (by omega), if_pos rfl]

theorem intCmp_add_one_gt (c : Int) : intCmp (c + 1) c = .gt := by
  unfold intCmp
  rw [if_neg (by omega), if_neg (by omega)]

theorem padZeros_cons (n : Nat) (a : Int) (l : List Int) :
    padZeros n (a :: l) = a :: padZeros (n - 1) l := by
  show a :: (l ++ List.replicate (n - (a :: l).length) 0) = _
  rw [List.length_cons]
  unfold padZeros
  congr 3
  omega

theorem lexCompare_cons_eq {cmp : α → α → Ordering} {a b : α} (h : cmp a b = .eq)
    (as bs : List α) : lexCompare cmp (a :: as) (b :: bs) = lexCompare cmp as bs := by
  show (cmp a b).then (lexCompare cmp as bs) = _
  rw [h]
  rfl

theorem lexCompare_cons_gt {cmp : α → α → Ordering} {a b : α} (h : cmp a b = .gt)
    (as bs : List α) : lexCompare cmp (a :: as) (b :: bs) = .gt := by
  show (cmp a b).then (lexCompare cmp as bs) = _
  rw [h]
  rfl

theorem compareSegs_patch_gt (l : List Int) :
    compareSegs [l.getD 0 0, l.getD 1 0, l.getD 2 0 + 1] l = .gt := by
  rcases l with _ | ⟨a, _ | ⟨b, _ | ⟨c, rest⟩⟩⟩
  · decide
  · show (intCmp a a).then ((intCmp 0 0).then ((intCmp (0 + 1) 0).then .eq)) = .gt
    rw [intCmp_self]
    rfl
  · show (intCmp a a).then ((intCmp b b).then ((intCmp (0 + 1) 0).then .eq)) = .gt
    rw [intCmp_self, intCmp_self]
    rfl
  · show compareSegs [a, b, c + 1] (a :: b :: c :: rest) = .gt
    unfold compareSegs
    rw [padZeros_cons, padZeros_cons, padZeros_cons, padZeros_cons, padZeros_cons, padZeros_cons]
    rw [lexCompare_cons_eq (intCmp_self a), lexCompare_cons_eq (intCmp_self b),
      lexCompare_cons_gt (intCmp_add_one_gt c)]

/-! ### Bounds of parsed segments -/

theorem parseNumSeg_bounds {l : List Char} {x : Int} (h : parseNumSeg l = some x) :
    0 ≤ x ∧ x ≤ maxInt64 := by
  unfold parseNumSeg at h
  split_ifs at h with hc
  · simp only [Option.some.injEq] at h
    simp only [Bool.and_eq_true, decide_eq_true_eq] at hc
    subst h
    obtain ⟨hc1, hc2⟩ := hc
    unfold maxInt64
    omega

theorem mapMO_forall {f : α → Option β} : ∀ {l : List α} {bs : List β},
    mapMO f l = some bs → ∀ b ∈ bs, ∃ a, f a = some b := by
  intro l
  induction l with
  | nil =>
    intro bs h b hb
    simp only [mapMO, Option.some.injEq] at h
    subst h
    exact absurd hb (List.not_mem_nil b)
  | cons a l ih =>
    intro bs h b hb
    simp only [mapMO] at h
    cases hfa : f a with
    | none => rw [hfa] at h; exact absurd h (by simp)
    | some b0 =>
      rw [hfa] at h
      cases hrec : mapMO f l with
      | none => rw [hrec] at h; exact absurd h (by simp)
      | some bs0 =>
        rw [hrec] at h
        simp only [Option.some.injEq] at h
        subst h
        rcases List.mem_cons.1 hb with rfl | hb
        · exact ⟨a, hfa⟩
        · exact ih hrec b hb

theorem parseCore_segments {sp : List Char} {preOpt metaOpt : Option (List Char)}
    {v : GoVersion} (h : parseCore sp preOpt metaOpt = some v) :
    ∀ s ∈ v.segments, 0 ≤ s ∧ s ≤ maxInt64 := by
  unfold parseCore at h
  cases hm : mapMO parseNumSeg (splitDots sp) with
  | none => rw [hm] at h; exact absurd h (by simp)
  | some segs =>
    rw [hm] at h
    split_ifs at h with hv
    · simp only [Option.some.injEq] at h
      subst h
      intro s hs
      unfold padTo3 at hs
      rcases List.mem_append.1 hs with hs | hs
      · obtain ⟨a, ha⟩ := mapMO_forall hm s hs
        exact parseNumSeg_bounds ha
      · rw [List.eq_of_mem_replicate hs]
        exact ⟨le_refl 0, by decide⟩

theorem parseMain_segments {mainPart : List Char} {metaOpt : Option (List Char)}
    {v : GoVersion} (h : parseMain mainPart metaOpt = some v) :
    ∀ s ∈ v.segments, 0 ≤ s ∧ s ≤ maxInt64 := by
  unfold parseMain at h
  cases hb : breakAt '-' mainPart with
  | none => rw [hb] at h; exact parseCore_segments h
  | some ab => rw [hb] at h; exact parseCore_segments h

theorem parseSemver_segments {l : List Char} {v : GoVersion}
    (h : parseSemverChars l = some v) : ∀ s ∈ v.segments, 0 ≤ s ∧ s ≤ maxInt64 := by
  unfold parseSemverChars at h
  cases hb : breakAt '+' (stripV l) with
  | none => rw [hb] at h; exact parseMain_segments h
  | some ab => rw [hb] at h; exact parseMain_segments h

theorem padTo3_getD_nonneg {l : List Int} (h : ∀ s ∈ l, 0 ≤ s) (i : Nat) :
    0 ≤ (padTo3 l).getD i 0 := by
  have hall : ∀ s ∈ padTo3 l, 0 ≤ s := by
    intro s hs
    unfold padTo3 at hs
    rcases List.mem_append.1 hs with hs | hs
    · exact h _ hs
    · rw [List.eq_of_mem_replicate hs]
  rcases Nat.lt_or_ge i (padTo3 l).length with hi | hi
  · rw [List.getD_eq_getElem _ _ hi]
    exact hall _ (List.getElem_mem hi)
  · rw [List.getD_eq_default _ _ hi]

/-! ### Claim C7 -/

/-- Claim C7: for every successful compare result, shouldTag returns true
exactly when some changed filename matches the configured pattern, false
on the empty change set, and the default match-all pattern returns true
for every nonempty change set. -/
theorem shouldTag_matches (m : String → Bool) (files : List String) :
    (shouldTagFiles m files = true ↔ ∃ f ∈ files, m f = true) ∧
      shouldTagFiles m [] = false ∧
      (files ≠ [] → shouldTagFiles matchAllRegexp files = true) := by
  refine ⟨List.any_eq_true, rfl, ?_⟩
  intro hne
  cases files with
  | nil => exact absurd rfl hne
  | cons f fs => rfl

/-- Witness for C7 at a concrete pattern and change set. -/
theorem shouldTag_matches_witness : shouldTagFiles matchAllRegexp [("main.go")] = true :=
  (shouldTag_matches (fun _ => false) [("main.go")]).2.2 (by simp)

/-! ### Claim C5 -/

/-- Event payload of a merged and closed pull request. -/
def prEventClosed : PullRequestEvent := ⟨("closed"), true, ("deadbeef")⟩

/-- Run in which every gate passes but no changed file matches. -/
def envNoChanges : MainEnv :=
  ⟨false, false, none, (""), ("pull_request"), ("t"), some (some prEventClosed), true,
    [[("refs/tags/v1.0.0")]], some [], true, true⟩

/-- Claim C5 counterexample: under the default configuration, the
no-matching-changes skip condition terminates with plain success 0, not
with the configured no-op status 78. -/
theorem skip_noChanges_counterexample :
    mainModel envNoChanges = ⟨.noChanges, 0⟩ ∧ exConfigVal envNoChanges = 78 ∧
      (0 : Nat) ≠ 78 := by
  refine ⟨rfl, rfl, by decide⟩

/-- Claim C5 (amended): the wrong-trigger and not-merged skip conditions
exit with the configured no-op status, while the no-matching-changes skip
condition returns from main and thus exits with plain success 0. -/
theorem skip_exit_codes (e : MainEnv) :
    (((mainModel e).reason = .ignoredTrigger ∨ (mainModel e).reason = .prNotReady) →
      (mainModel e).code = exConfigVal e) ∧
      ((mainModel e).reason = .noChanges → (mainModel e).code = 0) := by
  unfold mainModel
  repeat' split
  all_goals simp

/-- Run whose trigger is not a pull request. -/
def envIgnored : MainEnv :=
  ⟨false, false, none, (""), ("push"), (""), none, true, [], none, true, true⟩

/-- Witness for C5 amended: a non pull-request trigger exits with the
no-op status. -/
theorem skip_exit_codes_witness : (mainModel envIgnored).code = exConfigVal envIgnored :=
  (skip_exit_codes envIgnored).1 (Or.inl rfl)

/-! ### Claim C8 -/

/-- Claim C8: with NEVER_FAIL set, every fatal condition terminates with
the currently configured no-op status value, 0 when NO_EX_CONFIG is also
set and 78 otherwise, instead of the failure code 1. -/
theorem neverFail_remaps (e : MainEnv) (h : e.neverFail = true)
    (hf : isFatalReason (mainModel e).reason = true) :
    (mainModel e).code = (if e.noExConfig then 0 else 78) := by
  have key : (mainModel e).code = fatalExitVal e ∨
      isFatalReason (mainModel e).reason = false := by
    unfold mainModel
    repeat' split
    all_goals simp [isFatalReason]
  rcases key with hk | hk
  · rw [hk]
    unfold fatalExitVal exConfigVal
    rw [h, if_pos rfl]
  · rw [hk] at hf
    exact Bool.noConfusion hf

/-- Run with NEVER_FAIL set and the token missing. -/
def envNeverFail : MainEnv :=
  ⟨false, true, none, (""), ("pull_request"), (""), none, true, [], none, true, true⟩

/-- Witness for C8 at a forced missing-token fatal condition. -/
theorem neverFail_remaps_witness :
    (mainModel envNeverFail).code = (if envNeverFail.noExConfig then 0 else 78) :=
  neverFail_remaps envNeverFail rfl rfl

/-! ### Claims C2, C10, C9 about nextVersion -/

/-- Claim C2 (amended): nextVersion formats the configured prefix, a
letter v and exactly three dot-separated decimal segments, the first two
unchanged, the third the incremented patch, padding missing segments with
zeros; pre-release and metadata never reach the output. The increment is
faithful only below the int64 maximum, where the 64-bit add wraps. -/
theorem nextVersion_patch_incr (v : GoVersion) (pfx : String)
    (h0 : 0 ≤ v.segments.getD 2 0) (h1 : v.segments.getD 2 0 < maxInt64) :
    nextVersion v pfx = pfx ++ ⟨'v' :: intDec (v.segments.getD 0 0) ++ '.' ::
        intDec (v.segments.getD 1 0) ++ '.' :: intDec (v.segments.getD 2 0 + 1)⟩ ∧
      nextVersion ⟨v.segments, [], []⟩ pfx = nextVersion v pfx := by
  constructor
  · unfold nextVersion
    rw [padTo3_getD _ 0 (by norm_num), padTo3_getD _ 1 (by norm_num),
      padTo3_getD _ 2 (by norm_num)]
    have hb : v.segments.getD 2 0 + 1 < 2 ^ 63 := by
      have e : (2 : Int) ^ 63 = 9223372036854775808 := by norm_num
      simp only [maxInt64] at h1
      omega
    rw [int64wrap_id (by omega) hb]
  · rfl

/-- Version with the largest int64 patch segment. -/
def vBig : GoVersion := ⟨[1, 2, 9223372036854775807], [], []⟩

/-- Claim C2 counterexample: at patch 2^63 - 1 the increment wraps, so
the third output segment is not c+1. -/
theorem nextVersion_overflow_counterexample :
    newSemver ("v1.2.9223372036854775807") = some vBig ∧
      nextVersion vBig ("") = ("v1.2.-9223372036854775808") ∧
      nextVersion vBig ("") ≠ ("v1.2.9223372036854775808") := by
  refine ⟨by decide, rfl, by decide⟩

/-- Claim C10 (amended): a version with three numeric segments and a
nonempty pre-release maps to prefix v X.Y.(Z+1); the pre-release is
discarded. Faithful below the int64 maximum, where the 64-bit add wraps. -/
theorem nextVersion_prerelease_dropped (X Y Z : Int) (pr mt : List Char) (pfx : String)
    (hpr : pr ≠ []) (h0 : 0 ≤ Z) (h1 : Z < maxInt64) :
    nextVersion ⟨[X, Y, Z], pr, mt⟩ pfx =
      pfx ++ ⟨'v' :: intDec X ++ '.' :: intDec Y ++ '.' :: intDec (Z + 1)⟩ := by
  unfold nextVersion
  rw [show (padTo3 [X, Y, Z]).getD 0 0 = X from rfl,
    show (padTo3 [X, Y, Z]).getD 1 0 = Y from rfl,
    show (padTo3 [X, Y, Z]).getD 2 0 = Z from rfl]
  have hb : Z + 1 < 2 ^ 63 := by
    have e : (2 : Int) ^ 63 = 9223372036854775808 := by norm_num
    simp only [maxInt64] at h1
    omega
  rw [int64wrap_id (by omega) hb]

/-- Version with the largest int64 patch segment and a pre-release. -/
def vBigRC : GoVersion := ⟨[1, 2, 9223372036854775807], ['r', 'c', '1'], []⟩

/-- Claim C10 counterexample: at patch 2^63 - 1 with a pre-release the
increment wraps, so the output is not vX.Y.(Z+1). -/
theorem prerelease_overflow_counterexample :
    newSemver ("v1.2.9223372036854775807-rc1") = some vBigRC ∧
      nextVersion vBigRC ("") = ("v1.2.-9223372036854775808") ∧
      nextVersion vBigRC ("") ≠ ("v1.2.9223372036854775808") := by
  refine ⟨by decide, rfl, by decide⟩

/-- Witness for C10 amended at version v1.2.3-rc1. -/
theorem nextVersion_prerelease_dropped_witness :
    nextVersion ⟨[1, 2, 3], ['r', 'c', '1'], []⟩ ("") =
      ("") ++ ⟨'v' :: intDec 1 ++ '.' :: intDec 2 ++ '.' :: intDec (3 + 1)⟩ :=
  nextVersion_prerelease_dropped 1 2 3 ['r', 'c', '1'] [] ("") (by simp) (by omega)
    (by decide)

/-- Claim C9 (amended): for every well-formed parsed version whose patch
segment is below the int64 maximum, the nextVersion output minus its
prefix parses as a semantic version strictly greater than the input,
including versions with extra segments or a pre-release identifier. -/
theorem nextVersion_strictly_greater (v : GoVersion) (pfx : String)
    (hwf : ∀ s ∈ v.segments, 0 ≤ s ∧ s ≤ maxInt64)
    (hc : v.segments.getD 2 0 < maxInt64) :
    ∃ (w : GoVersion) (rest : String), nextVersion v pfx = pfx ++ rest ∧
      newSemver rest = some w ∧ greaterThan w v = true := by
  simp only [maxInt64] at hwf hc
  have hgd : ∀ i, 0 ≤ v.segments.getD i 0 ∧ v.segments.getD i 0 ≤ 9223372036854775807 := by
    intro i
    rcases Nat.lt_or_ge i v.segments.length with hi | hi
    · rw [List.getD_eq_getElem _ _ hi]
      exact hwf _ (List.getElem_mem hi)
    · rw [List.getD_eq_default _ _ hi]
      exact ⟨le_refl 0, by decide⟩
  have h2 : v.segments.getD 2 0 + 1 ≤ 9223372036854775807 := by
    have := (hgd 2).1
    omega
  refine ⟨⟨[v.segments.getD 0 0, v.segments.getD 1 0, v.segments.getD 2 0 + 1], [], []⟩,
    ⟨'v' :: natDec (v.segments.getD 0 0).toNat ++ '.' ::
      natDec (v.segments.getD 1 0).toNat ++ '.' ::
        natDec (v.segments.getD 2 0 + 1).toNat⟩, ?_, ?_, ?_⟩
  · unfold nextVersion
    rw [padTo3_getD _ 0 (by norm_num), padTo3_getD _ 1 (by norm_num),
      padTo3_getD _ 2 (by norm_num)]
    have hb : v.segments.getD 2 0 + 1 < 2 ^ 63 := by
      have e : (2 : Int) ^ 63 = 9223372036854775808 := by norm_num
      omega
    rw [int64wrap_id (by have := (hgd 2).1; omega) hb]
    rw [intDec_nonneg (hgd 0).1, intDec_nonneg (hgd 1).1,
      intDec_nonneg (by have := (hgd 2).1; omega)]
  · show parseSemverChars ('v' :: natDec (v.segments.getD 0 0).toNat ++ '.' ::
      natDec (v.segments.getD 1 0).toNat ++ '.' ::
        natDec (v.segments.getD 2 0 + 1).toNat) = _
    rw [show ('v' :: natDec (v.segments.getD 0 0).toNat ++ '.' ::
      natDec (v.segments.getD 1 0).toNat ++ '.' ::
        natDec (v.segments.getD 2 0 + 1).toNat : List Char) =
      'v' :: (natDec (v.segments.getD 0 0).toNat ++ '.' ::
        (natDec (v.segments.getD 1 0).toNat ++ '.' ::
          natDec (v.segments.getD 2 0 + 1).toNat)) from by simp]
    rw [parseSemver_plain _ _ _ (natDec_ne_nil _) (natDec_digits _)
      (by rw [digitsVal_natDec]; have := (hgd 0).2; have := (hgd 0).1; omega)
      (natDec_ne_nil _) (natDec_digits _)
      (by rw [digitsVal_natDec]; have := (hgd 1).2; have := (hgd 1).1; omega)
      (natDec_ne_nil _) (natDec_digits _)
      (by rw [digitsVal_natDec]; have := (hgd 2).1; omega)]
    rw [digitsVal_natDec, digitsVal_natDec, digitsVal_natDec]
    rw [show (((v.segments.getD 0 0).toNat : Int)) = v.segments.getD 0 0 from
        Int.toNat_of_nonneg (hgd 0).1,
      show (((v.segments.getD 1 0).toNat : Int)) = v.segments.getD 1 0 from
        Int.toNat_of_nonneg (hgd 1).1,
      show (((v.segments.getD 2 0 + 1).toNat : Int)) = v.segments.getD 2 0 + 1 from
        Int.toNat_of_nonneg (by have := (hgd 2).1; omega)]
  · rw [greaterThan_iff]
    show (compareSegs [v.segments.getD 0 0, v.segments.getD 1 0, v.segments.getD 2 0 + 1]
      v.segments).then (comparePre [] v.pre) = .gt
    rw [compareSegs_patch_gt]
    rfl

/-- Pre-release version used as the C9 witness input. -/
def vRC : GoVersion := ⟨[1, 2, 3], ['r', 'c', '1'], []⟩

/-- Witness for C9 amended at version v1.2.3-rc1 with prefix sub/. -/
theorem nextVersion_strictly_greater_witness :
    ∃ (w : GoVersion) (rest : String), nextVersion vRC ("sub/") = ("sub/") ++ rest ∧
      newSemver rest = some w ∧ greaterThan w vRC = true :=
  nextVersion_strictly_greater vRC ("sub/") (by decide) (by decide)

/-! ### Claims C1 and C4 about the resolver -/

/-- Claim C1 counterexample: the tag v0.0.0 parses as a semantic version,
yet getLastVersion fails with the could-not-find error instead of
returning the maximum 0.0.0. The same happens for any parsable tag not
strictly greater than 0.0.0, even one rendering differently from 0.0.0:
v0.0.0-rc1 parses, its pre-release sorts below 0.0.0, so the sentinel is
never displaced and the resolver errors. -/
theorem getLastVersion_zero_counterexample :
    ((∃ v, parseTag ("") ("refs/tags/v0.0.0") = some v) ∧
      getLastVersion [[("refs/tags/v0.0.0")]] ("") =
        .error ("could not find any versions")) ∧
      ((∃ v, parseTag ("") ("refs/tags/v0.0.0-rc1") = some v ∧
          versionString v ≠ ("0.0.0")) ∧
        getLastVersion [[("refs/tags/v0.0.0-rc1")]] ("") =
          .error ("could not find any versions")) :=
  ⟨⟨⟨⟨[0, 0, 0], [], []⟩, rfl⟩, rfl⟩,
    ⟨⟨⟨[0, 0, 0], ['r', 'c', '1'], []⟩, rfl, by decide⟩, rfl⟩⟩

/-- Claim C1 (amended): if some tag, after the prefix stripping, parses
as a semantic version strictly greater than 0.0.0, then getLastVersion
succeeds with a version that is itself parsed from one of the tags and
that no parsed tag exceeds by semver ordering; unparsable tags are
skipped without causing failure. -/
theorem getLastVersionMax (pages : List (List String)) (pfx : String)
    (h : ∃ t ∈ pages.flatten, ∃ v, parseTag pfx t = some v ∧ greaterThan v v000 = true) :
    ∃ r, getLastVersion pages pfx = .ok r ∧
      (∃ t ∈ pages.flatten, parseTag pfx t = some r) ∧
      (∀ t ∈ pages.flatten, ∀ v, parseTag pfx t = some v → greaterThan v r = false) := by
  obtain ⟨t0, ht0, v0, hp0, hg0⟩ := h
  set r := pages.flatten.foldl (processRef pfx) v000 with hr
  have hub : ∀ t ∈ pages.flatten, ∀ v, parseTag pfx t = some v → greaterThan v r = false := by
    intro t ht v hv
    have hu := foldl_ub pfx pages.flatten v000 t v ht hv
    cases hgv : greaterThan v r
    · rfl
    · exact absurd (greaterThan_iff.1 hgv) hu
  have hgt0 : compareVersion r v000 = .gt := by
    have hnv : compareVersion v0 r ≠ .gt := by
      intro hh
      have h1 := hub t0 ht0 v0 hp0
      have h2 := greaterThan_iff.2 hh
      rw [h1] at h2
      exact Bool.noConfusion h2
    have hg0c : compareVersion v0 v000 = .gt := greaterThan_iff.1 hg0
    cases e : compareVersion v0 r with
    | lt =>
      have hge : compareVersion r v0 = .gt := Batteries.OrientedCmp.cmp_eq_gt.2 e
      exact Batteries.TransCmp.gt_trans hge hg0c
    | eq =>
      rw [← Batteries.TransCmp.cmp_congr_left e]
      exact hg0c
    | gt => exact absurd e hnv
  have hmem : ∃ t ∈ pages.flatten, parseTag pfx t = some r := by
    rcases foldl_mem pfx pages.flatten v000 with he | hm
    · exfalso
      rw [← hr] at he
      rw [he, compareVersion_refl] at hgt0
      exact Ordering.noConfusion hgt0
    · exact hm
  have hstr : versionString r ≠ ("0.0.0") := by
    intro hs
    have h000 : versionCharsOf r = ['0', '.', '0', '.', '0'] := by
      have hdata := congrArg String.data hs
      simpa [versionString] using hdata
    obtain ⟨hseg, hpre⟩ := versionChars_000 h000
    have heq : compareVersion r v000 = .eq := by
      show (compareSegs r.segments [0, 0, 0]).then (comparePre r.pre []) = .eq
      rw [hseg, hpre]
      decide
    rw [hgt0] at heq
    exact Ordering.noConfusion heq
  refine ⟨r, ?_, hmem, hub⟩
  unfold getLastVersion
  rw [nestedFoldl_eq_join, ← hr, if_neg hstr]

/-- Witness for C1 amended over the paginated test vector from the
specification, whose maximum parsable tag is v1.2.0. -/
theorem getLastVersionMax_witness :
    ∃ r, getLastVersion [[("refs/tags/v1.0.0"), ("refs/tags/v1.2.0")],
        [("refs/tags/not-a-version"), ("refs/tags/v1.1.5")]] ("") = .ok r ∧
      (∃ t ∈ ([[("refs/tags/v1.0.0"), ("refs/tags/v1.2.0")],
        [("refs/tags/not-a-version"), ("refs/tags/v1.1.5")]] :
          List (List String)).flatten, parseTag ("") t = some r) ∧
      (∀ t ∈ ([[("refs/tags/v1.0.0"), ("refs/tags/v1.2.0")],
        [("refs/tags/not-a-version"), ("refs/tags/v1.1.5")]] :
          List (List String)).flatten, ∀ v, parseTag ("") t = some v →
        greaterThan v r = false) :=
  getLastVersionMax _ ("")
    ⟨("refs/tags/v1.2.0"), by decide, ⟨[1, 2, 0], [], []⟩, rfl, rfl⟩

/-- Claim C4: over an empty tag source, or one whose tag names all fail
the semantic-version parse after prefix stripping, getLastVersion returns
the could-not-find error rather than 0.0.0 as a result. -/
theorem getLastVersion_no_versions (pages : List (List String)) (pfx : String)
    (h : ∀ t ∈ pages.flatten, parseTag pfx t = none) :
    getLastVersion pages pfx = .error ("could not find any versions") := by
  unfold getLastVersion
  rw [nestedFoldl_eq_join, foldl_skip_none pfx pages.flatten v000 h]
  rfl

/-- Witness for C4 over an empty page followed by one unparsable tag. -/
theorem getLastVersion_no_versions_witness :
    getLastVersion [[], [("refs/tags/not-a-version")]] ("") =
      .error ("could not find any versions") :=
  getLastVersion_no_versions _ ("") (by decide)

/-! ### Claim C6 about prefix filtering -/

theorem flatten_map_filter (q : String → Bool) : ∀ pages : List (List String),
    (pages.map (List.filter q)).flatten = pages.flatten.filter q
  | [] => rfl
  | pg :: rest => by
    rw [List.map_cons, List.flatten_cons, List.flatten_cons, List.filter_append,
      flatten_map_filter q rest]

theorem foldl_skip_filter (pfx : String) (q : String → Bool) :
    ∀ (l : List String) (acc : GoVersion),
      (∀ t ∈ l, q t = false → parseTag pfx t = none) →
      l.foldl (processRef pfx) acc = (l.filter q).foldl (processRef pfx) acc
  | [], _, _ => rfl
  | t :: rest, acc, h => by
    cases hq : q t with
    | true =>
      rw [List.filter_cons_of_pos hq, List.foldl_cons, List.foldl_cons]
      exact foldl_skip_filter pfx q rest (processRef pfx acc t)
        (fun u hu hqu => h u (List.mem_cons_of_mem _ hu) hqu)
    | false =>
      rw [List.filter_cons_of_neg (by simp [hq]), List.foldl_cons,
        processRef_none (h t (List.mem_cons_self _ _) hq)]
      exact foldl_skip_filter pfx q rest acc
        (fun u hu hqu => h u (List.mem_cons_of_mem _ hu) hqu)

theorem parseTag_unmatched {pfx t : String}
    (href : ("refs/tags/").data.isPrefixOf t.data = true)
    (hnot : (("refs/tags/" ++ pfx)).data.isPrefixOf t.data = false) :
    parseTag pfx t = none := by
  unfold parseTag trimPfx
  rw [if_neg (by intro hcontra; rw [hnot] at hcontra; exact Bool.noConfusion hcontra)]
  obtain ⟨rest, hrest⟩ := List.isPrefixOf_iff_prefix.1 href
  rw [← hrest]
  rw [show ("refs/tags/").data ++ rest = 'r' :: (("efs/tags/").data ++ rest) from rfl]
  exact parseSemver_bad_head (by decide) (by decide) _

/-- Claim C6: with a configured tag prefix, only tag names carrying the
full refs/tags/ plus prefix form are considered: filtering out all other
refs leaves the result of getLastVersion unchanged; concretely, with
prefix sub/ over the tags sub/v1.0.0 and v9.9.9 the resolver yields
1.0.0, the unprefixed v9.9.9 not contributing. -/
theorem tagPfxFilters (pages : List (List String)) (pfx : String)
    (href : ∀ t ∈ pages.flatten, ("refs/tags/").data.isPrefixOf t.data = true)
    (hpfx : pfx ≠ ("")) :
    getLastVersion pages pfx =
      getLastVersion (pages.map (List.filter
        (fun t => (("refs/tags/" ++ pfx)).data.isPrefixOf t.data))) pfx ∧
      getLastVersion [[("refs/tags/sub/v1.0.0"), ("refs/tags/v9.9.9")]] ("sub/") =
        .ok ⟨[1, 0, 0], [], []⟩ ∧
      versionString ⟨[1, 0, 0], [], []⟩ = ("1.0.0") := by
  refine ⟨?_, rfl, rfl⟩
  have hskip : ∀ t ∈ pages.flatten,
      (fun t => (("refs/tags/" ++ pfx)).data.isPrefixOf t.data) t = false →
      parseTag pfx t = none :=
    fun t ht hq => parseTag_unmatched (href t ht) hq
  unfold getLastVersion
  rw [nestedFoldl_eq_join, nestedFoldl_eq_join, flatten_map_filter,
    ← foldl_skip_filter pfx _ pages.flatten v000 hskip]

/-- Witness for C6 at the example of the specification. -/
theorem tagPfxFilters_witness :
    getLastVersion [[("refs/tags/sub/v1.0.0"), ("refs/tags/v9.9.9")]] ("sub/") =
      getLastVersion ([[("refs/tags/sub/v1.0.0"), ("refs/tags/v9.9.9")]].map (List.filter
        (fun t => (("refs/tags/" ++ ("sub/"))).data.isPrefixOf t.data))) ("sub/") :=
  (tagPfxFilters [[("refs/tags/sub/v1.0.0"), ("refs/tags/v9.9.9")]] ("sub/")
    (by decide) (by decide)).1

/-! ### Claim C3 about the build-metadata output shape -/

theorem reverse_sep {α : Type} (U W : List α) (c : α) :
    (U ++ c :: W).reverse = W.reverse ++ c :: U.reverse := by
  rw [List.reverse_append, List.reverse_cons, List.append_assoc]
  rfl

/-- Claim C3 (amended): the next-version calculator produces only the
plain output shape, the configured prefix followed by a letter v and
three decimal segments; no configuration appends build metadata. -/
theorem nextVersion_plain_shape (v : GoVersion) (pfx : String) :
    ∃ x y z : Int, nextVersion v pfx =
      pfx ++ ⟨'v' :: intDec x ++ '.' :: intDec y ++ '.' :: intDec z⟩ :=
  ⟨_, _, _, rfl⟩

/-- Claim C3 counterexample, as a negation: no version with nonnegative
segments and no prefix configuration make nextVersion produce the
build-metadata shape with a YYYY-MM-DD date and a twelve-character
hexadecimal commit-ref abbreviation after a plus sign. -/
theorem no_metadata_shape :
    ¬ ∃ (v : GoVersion) (pfx : String), (∀ s ∈ v.segments, 0 ≤ s) ∧
      metadataShape (nextVersion v pfx) := by
  rintro ⟨v, pfx, hwf, maj, minor, patch, sha, y1, y2, y3, y4, m1, m2, d1, d2,
    hmaj, hmajd, hmin, hmind, hpat, hpatd, hy1, hy2, hy3, hy4, hm1, hm2, hd1, hd2,
    hlen, hsha, heq⟩
  obtain ⟨P⟩ := pfx
  have hBdig : ∀ c ∈ intDec ((padTo3 v.segments).getD 1 0), isDigitC c = true := by
    rw [intDec_nonneg (padTo3_getD_nonneg hwf 1)]
    exact natDec_digits _
  have hBne : intDec ((padTo3 v.segments).getD 1 0) ≠ [] := intDec_ne_nil _
  have hCd : '.' ∉ intDec (int64wrap ((padTo3 v.segments).getD 2 0 + 1)) :=
    not_mem_intDec (by decide) (by decide) _
  have hshad : '.' ∉ sha := by
    intro hm
    have hx := hsha '.' hm
    rw [show hexDigitC '.' = false from by decide] at hx
    exact Bool.noConfusion hx
  have hdata : (nextVersion v ⟨P⟩).data =
      P ++ 'v' :: (intDec ((padTo3 v.segments).getD 0 0) ++ '.' ::
        (intDec ((padTo3 v.segments).getD 1 0) ++ '.' ::
          intDec (int64wrap ((padTo3 v.segments).getD 2 0 + 1)))) := by
    show P ++ ((('v' :: intDec ((padTo3 v.segments).getD 0 0)) ++
        ('.' :: intDec ((padTo3 v.segments).getD 1 0))) ++
        ('.' :: intDec (int64wrap ((padTo3 v.segments).getD 2 0 + 1)))) =
      P ++ 'v' :: (intDec ((padTo3 v.segments).getD 0 0) ++ '.' ::
        (intDec ((padTo3 v.segments).getD 1 0) ++ '.' ::
          intDec (int64wrap ((padTo3 v.segments).getD 2 0 + 1))))
    simp only [List.cons_append, List.append_assoc]
  have E0 : P ++ 'v' :: (intDec ((padTo3 v.segments).getD 0 0) ++ '.' ::
      (intDec ((padTo3 v.segments).getD 1 0) ++ '.' ::
        intDec (int64wrap ((padTo3 v.segments).getD 2 0 + 1)))) =
      'v' :: (maj ++ '.' :: (minor ++ '.' :: (patch ++ '+' ::
        ([y1, y2, y3, y4, '-', m1, m2, '-', d1, d2] ++ '.' :: sha)))) :=
    hdata.symm.trans heq
  have E1 := congrArg List.reverse E0
  have revL : (P ++ 'v' :: (intDec ((padTo3 v.segments).getD 0 0) ++ '.' ::
      (intDec ((padTo3 v.segments).getD 1 0) ++ '.' ::
        intDec (int64wrap ((padTo3 v.segments).getD 2 0 + 1))))).reverse =
      (intDec (int64wrap ((padTo3 v.segments).getD 2 0 + 1))).reverse ++ '.' ::
        ((intDec ((padTo3 v.segments).getD 1 0)).reverse ++ '.' ::
          ((intDec ((padTo3 v.segments).getD 0 0)).reverse ++ 'v' :: P.reverse)) := by
    rw [reverse_sep, reverse_sep, reverse_sep]
    simp only [List.append_assoc, List.cons_append]
  have revR : ('v' :: (maj ++ '.' :: (minor ++ '.' :: (patch ++ '+' ::
      ([y1, y2, y3, y4, '-', m1, m2, '-', d1, d2] ++ '.' :: sha)))) : List Char).reverse =
      sha.reverse ++ '.' ::
        (([y1, y2, y3, y4, '-', m1, m2, '-', d1, d2] : List Char).reverse ++ '+' ::
          (patch.reverse ++ '.' ::
            (minor.reverse ++ '.' :: (maj.reverse ++ ['v'])))) := by
    rw [List.reverse_cons, reverse_sep, reverse_sep, reverse_sep, reverse_sep]
    simp only [List.append_assoc, List.cons_append]
  rw [revL, revR] at E1
  have hCrev : '.' ∉ (intDec (int64wrap ((padTo3 v.segments).getD 2 0 + 1))).reverse :=
    fun hm => hCd (List.mem_reverse.1 hm)
  have hsharev : '.' ∉ sha.reverse := fun hm => hshad (List.mem_reverse.1 hm)
  have E2 := @sep_split_inj '.' _ _ _ _ hCrev hsharev E1
  have E3 := E2.2
  rw [show ([y1, y2, y3, y4, '-', m1, m2, '-', d1, d2] : List Char).reverse =
    [d2, d1, '-', m2, m1, '-', y4, y3, y2, y1] from rfl] at E3
  have hBrd : ∀ c ∈ (intDec ((padTo3 v.segments).getD 1 0)).reverse, isDigitC c = true :=
    fun c hm => hBdig c (List.mem_reverse.1 hm)
  rcases hBr : (intDec ((padTo3 v.segments).getD 1 0)).reverse
    with _ | ⟨c1, _ | ⟨c2, _ | ⟨c3, br⟩⟩⟩
  · exact hBne (List.reverse_eq_nil_iff.1 hBr)
  · rw [hBr] at E3
    simp only [List.cons_append, List.nil_append, List.cons.injEq] at E3
    obtain ⟨e1, e2, e3⟩ := E3
    rw [← e2] at hd1
    exact absurd hd1 (by decide)
  · rw [hBr] at E3
    simp only [List.cons_append, List.nil_append, List.cons.injEq] at E3
    obtain ⟨e1, e2, e3, e4⟩ := E3
    exact absurd e3 (by decide)
  · rw [hBr] at E3
    simp only [List.cons_append, List.cons.injEq] at E3
    obtain ⟨e1, e2, e3, e4⟩ := E3
    have hc3 : isDigitC c3 = true := hBrd c3 (by rw [hBr]; simp)
    rw [e3] at hc3
    exact absurd hc3 (by decide)

/-- Witness for C2 amended at version v1.2.3 with an empty prefix. -/
theorem nextVersion_patch_incr_witness :
    nextVersion ⟨[1, 2, 3], [], []⟩ ("") = ("") ++ ⟨'v' :: intDec 1 ++ '.' ::
        intDec 2 ++ '.' :: intDec (3 + 1)⟩ ∧
      nextVersion ⟨[1, 2, 3], [], []⟩ ("") = nextVersion ⟨[1, 2, 3], [], []⟩ ("") :=
  nextVersion_patch_incr ⟨[1, 2, 3], [], []⟩ ("") (by decide) (by decide)

/-- Claim C9 counterexample: at patch 2^63 - 1 the wrapped output has a
negative third segment, so it does not even parse back as a semantic
version, let alone compare greater than the input. -/
theorem next_not_greater_counterexample :
    nextVersion vBig ("") = ("v1.2.-9223372036854775808") ∧
      newSemver ("v1.2.-9223372036854775808") = none :=
  ⟨rfl, by decide⟩
